import Mathlib

/-!
# Verification of the `Calculator` state machine (src/Calculator.ts)

Shallow embedding of the four-function calculator.  JavaScript numbers are
modelled by `JSNum`: exact rationals together with the special values
`Infinity`, `-Infinity` and `NaN`.  The model keeps IEEE-754 special-value
propagation (division by zero, arithmetic with infinities) but idealises
finite arithmetic as exact rational arithmetic (no rounding, no overflow,
no negative zero); every claim below only exercises values where the two
agree.  Strings are Lean `String`s; `parseFloat` and number-to-string
conversion mirror the JavaScript behaviour on the string shapes the
calculator produces, including `Number.prototype.toString`'s switch to
exponential notation (`1e-7`, `1e+21`, ...) outside `[1e-6, 1e21)` and
`parseFloat`'s acceptance of exponent suffixes.  Logging is modelled by
the list of `LogEvent`s an operation emits, in source order.
-/

namespace Calculator

/-! ### Kernel-computable rational arithmetic

The standard `Rat` operations are marked irreducible in the library, so
closed computations with them cannot be settled by `decide`.  The
operations below are ordinary reducible definitions via `mkRat`; the
`_eq` lemmas prove each one equal to the standard operation. -/

/-- Rational addition via `mkRat` (equals `a + b`, see `qAdd_eq`). -/
def qAdd (a b : ℚ) : ℚ := mkRat (a.num * b.den + b.num * a.den) (a.den * b.den)

/-- Rational negation via `mkRat` (equals `-a`, see `qNeg_eq`). -/
def qNeg (a : ℚ) : ℚ := mkRat (-a.num) a.den

/-- Rational multiplication via `mkRat` (equals `a * b`, see `qMul_eq`). -/
def qMul (a b : ℚ) : ℚ := mkRat (a.num * b.num) (a.den * b.den)

/-- Rational inverse via `mkRat` (equals `b⁻¹`, see `qInv_eq`). -/
def qInv (b : ℚ) : ℚ :=
  if 0 ≤ b.num then mkRat b.den b.num.natAbs else mkRat (-(b.den : Int)) b.num.natAbs

/-- Rational division via `mkRat` (equals `a / b`, see `qDiv_eq`). -/
def qDiv (a b : ℚ) : ℚ := qMul a (qInv b)

theorem qAdd_eq (a b : ℚ) : qAdd a b = a + b := by rw [qAdd, Rat.add_def']

theorem qNeg_eq (a : ℚ) : qNeg a = -a := by rw [qNeg, Rat.neg_def, Rat.mkRat_eq_divInt]

theorem qMul_eq (a b : ℚ) : qMul a b = a * b := by
  rw [qMul, Rat.mul_def, Rat.normalize_eq_mkRat]

theorem qInv_eq (b : ℚ) : qInv b = b⁻¹ := by
  rw [Rat.inv_def', qInv]
  split
  case isTrue h => rw [Rat.mkRat_eq_divInt, Int.natAbs_of_nonneg h]
  case isFalse h =>
    rw [Rat.mkRat_eq_divInt]
    rw [show (b.num.natAbs : Int) = -b.num by omega]
    rw [Rat.divInt_neg, neg_neg]

theorem qDiv_eq (a b : ℚ) : qDiv a b = a / b := by
  rw [qDiv, qMul_eq, qInv_eq, div_eq_mul_inv]

/-- The binary operations supported by the calculator (`enum Op`). -/
inductive Op where
| Add
| Sub
| Mul
| Div
deriving DecidableEq

/-- A JavaScript number: a finite value (modelled exactly as a rational)
or one of the special values `Infinity`, `-Infinity`, `NaN`. -/
inductive JSNum where
| finite (q : ℚ)
| inf
| negInf
| nan
deriving DecidableEq

/-- Negation of a JavaScript number. -/
def jsNeg : JSNum → JSNum
| .finite q => .finite (qNeg q)
| .inf => .negInf
| .negInf => .inf
| .nan => .nan

/-- Addition of JavaScript numbers (`+`), with IEEE special-value rules. -/
def jsAdd : JSNum → JSNum → JSNum
| .nan, _ => .nan
| _, .nan => .nan
| .inf, .negInf => .nan
| .negInf, .inf => .nan
| .inf, _ => .inf
| _, .inf => .inf
| .negInf, _ => .negInf
| _, .negInf => .negInf
| .finite a, .finite b => .finite (qAdd a b)

/-- Subtraction of JavaScript numbers (`-`): `a - b = a + (-b)`. -/
def jsSub (a b : JSNum) : JSNum := jsAdd a (jsNeg b)

/-- Multiplication of JavaScript numbers (`*`), with IEEE special-value
rules (`Infinity * 0 = NaN`, sign rules for infinities). -/
def jsMul : JSNum → JSNum → JSNum
| .nan, _ => .nan
| _, .nan => .nan
| .finite a, .finite b => .finite (qMul a b)
| .inf, .inf => .inf
| .inf, .negInf => .negInf
| .negInf, .inf => .negInf
| .negInf, .negInf => .inf
| .inf, .finite b => if 0 < b then .inf else if b < 0 then .negInf else .nan
| .finite a, .inf => if 0 < a then .inf else if a < 0 then .negInf else .nan
| .negInf, .finite b => if 0 < b then .negInf else if b < 0 then .inf else .nan
| .finite a, .negInf => if 0 < a then .negInf else if a < 0 then .inf else .nan

/-- Division of JavaScript numbers (`/`): division by zero yields
`±Infinity` (or `NaN` for `0/0`); infinities follow IEEE rules.
Negative zero is not modelled. -/
def jsDiv : JSNum → JSNum → JSNum
| .nan, _ => .nan
| _, .nan => .nan
| .inf, .inf => .nan
| .inf, .negInf => .nan
| .negInf, .inf => .nan
| .negInf, .negInf => .nan
| .inf, .finite b => if b < 0 then .negInf else .inf
| .negInf, .finite b => if b < 0 then .inf else .negInf
| .finite _, .inf => .finite 0
| .finite _, .negInf => .finite 0
| .finite a, .finite b =>
    if b = 0 then (if 0 < a then .inf else if a < 0 then .negInf else .nan)
    else .finite (qDiv a b)

/-- The JavaScript comparison `x >= c` for a rational bound `c`
(`NaN >= c` is `false`). -/
def jsGe (x : JSNum) (c : ℚ) : Bool :=
  match x with
  | .finite q => decide (c ≤ q)
  | .inf => true
  | .negInf => false
  | .nan => false

/-- The JavaScript comparison `x <= c` for a rational bound `c`
(`NaN <= c` is `false`). -/
def jsLe (x : JSNum) (c : ℚ) : Bool :=
  match x with
  | .finite q => decide (q ≤ c)
  | .inf => false
  | .negInf => true
  | .nan => false

/-! ## Digits, number-to-string conversion, `parseFloat` -/

/-- The character for the decimal digit `n` (meaningful for `n ≤ 9`). -/
def digitChar (n : Nat) : Char := Char.ofNat (48 + n)

/-- Is `c` a decimal digit character? -/
def isDigitCh (c : Char) : Bool := 48 ≤ c.toNat && c.toNat ≤ 57

/-- Fuel-driven digit expansion of a natural number (structural
recursion on `fuel` so that the kernel can evaluate it; `fuel > n` is
always enough). -/
def natToDigitsAux : Nat → Nat → List Char
| 0, _ => []
| fuel + 1, n =>
    if n < 10 then [digitChar n]
    else natToDigitsAux fuel (n / 10) ++ [digitChar (n % 10)]

/-- The decimal digit characters of `n`, most significant first
(JavaScript `n.toString()` for a natural number). -/
def natToDigits (n : Nat) : List Char := natToDigitsAux (n + 1) n

/-- Decimal expansion of the proper fraction `num / den` (`num < den`),
up to `fuel` digits, stopping early when the remainder reaches zero. -/
def fracDigits (num den : Nat) : Nat → List Char
| 0 => []
| fuel + 1 =>
    let r10 := num * 10
    let dg := r10 / den
    let r := r10 % den
    digitChar dg :: (if r = 0 then [] else fracDigits r den fuel)

/-- Decimal digit string of a nonnegative rational: integer part, then a
decimal point and the fractional digits when the value is not an integer.
(JavaScript prints the shortest round-tripping decimal of a float; this
model prints the exact expansion, capped at 20 fractional digits — the
two agree on the short terminating decimals the claims exercise.) -/
def ratPosChars (q : ℚ) : List Char :=
  let n := q.num.toNat
  let d := q.den
  natToDigits (n / d) ++ (if n % d = 0 then [] else '.' :: fracDigits (n % d) d 20)

/-- Drop trailing `0` characters from a digit list. -/
def trimZeros : List Char → List Char
| [] => []
| c :: rest =>
    match trimZeros rest with
    | [] => if c = '0' then [] else [c]
    | r => c :: r

/-- Lay out mantissa digits for exponential notation: the first digit,
then a decimal point and the remaining digits when there are any. -/
def mantissaFormat : List Char → List Char
| [] => ['0']
| [c] => [c]
| c :: rest => c :: '.' :: rest

/-- Smallest `k` with `d ≤ n * 10 ^ k` (found by scaling; `fuel` bounds
the search and one more than the digit count of `d` is always enough). -/
def scaleCount (n d : Nat) : Nat → Nat
| 0 => 0
| fuel + 1 => if d ≤ n then 0 else scaleCount (n * 10) d fuel + 1

/-- Exponential rendering of a rational `p ≥ 1e21`: mantissa digits with
trailing zeros trimmed, then `e+` and the decimal exponent (the number
of integer digits minus one). -/
def expLargeChars (p : ℚ) : List Char :=
  let n := p.num.toNat
  let d := p.den
  let ids := natToDigits (n / d)
  let m := trimZeros (ids ++ (if n % d = 0 then [] else fracDigits (n % d) d 20))
  mantissaFormat m ++ 'e' :: '+' :: natToDigits (ids.length - 1)

/-- Exponential rendering of a rational `0 < p < 1e-6`: the value is
scaled by `10 ^ k` into `[1, 10)`, its digits are printed with trailing
zeros trimmed, and `e-` with the exponent `k` is appended. -/
def expSmallChars (p : ℚ) : List Char :=
  let n := p.num.toNat
  let d := p.den
  let k := scaleCount n d ((natToDigits d).length + 1)
  let scaled := n * 10 ^ k
  let m := trimZeros (natToDigits (scaled / d) ++
    (if scaled % d = 0 then [] else fracDigits (scaled % d) d 20))
  mantissaFormat m ++ 'e' :: '-' :: natToDigits k

/-- `1e-6`: the smallest magnitude that `Number.prototype.toString`
still renders in plain positional notation. -/
def plainLow : ℚ := mkRat 1 1000000

/-- `1e21`: the smallest magnitude that `Number.prototype.toString`
renders in exponential notation. -/
def plainHigh : ℚ := mkRat (Int.ofNat (10 ^ 21)) 1

/-- Digit rendering of a nonnegative rational, following the
ECMAScript `Number::toString` notation switch: plain positional digits
for zero and for magnitudes in `[1e-6, 1e21)`, exponential notation
(`d[.ddd]e±NN`) outside that range. -/
def ratBodyChars (p : ℚ) : List Char :=
  if plainLow ≤ p ∧ p < plainHigh then ratPosChars p
  else if p = 0 then ratPosChars p
  else if p < 1 then expSmallChars p
  else expLargeChars p

/-- JavaScript `Number.prototype.toString` for the modelled numbers,
including the switch to exponential notation for magnitudes at least
`1e21` or below `1e-6`.  (JavaScript prints the shortest round-tripping
decimal of a float; this exact-rational model prints the exact
expansion, capped at 20 fractional digits — the two agree on the short
terminating decimals the claims evaluate.) -/
def numToString : JSNum → String
| .nan => "NaN"
| .inf => "Infinity"
| .negInf => "-Infinity"
| .finite q =>
    if q < 0 then String.mk ('-' :: ratBodyChars (qNeg q)) else String.mk (ratBodyChars q)

/-- Numeric value of a list of digit characters read in base 10. -/
def natVal (ds : List Char) : Nat := ds.foldl (fun a c => 10 * a + (c.toNat - 48)) 0

/-- Rational value of an integer digit list together with a fractional
digit list: `integer + fraction / 10 ^ length`. -/
def digitsVal (ds fs : List Char) : ℚ :=
  qAdd (mkRat (natVal ds) 1) (mkRat (natVal fs) (10 ^ fs.length))

/-- Scale a parsed mantissa by an exponent suffix: after the `e`/`E`
marker an optional sign and then digits; with no digit the suffix is
ignored, exactly as `parseFloat` ignores an incomplete exponent. -/
def applySignedExp (base : ℚ) (cs : List Char) : ℚ :=
  if cs.head? = some '-' then
    if cs.tail.takeWhile isDigitCh = [] then base
    else qMul base (mkRat 1 (10 ^ natVal (cs.tail.takeWhile isDigitCh)))
  else
    let body := if cs.head? = some '+' then cs.tail else cs
    if body.takeWhile isDigitCh = [] then base
    else qMul base (mkRat (Int.ofNat (10 ^ natVal (body.takeWhile isDigitCh))) 1)

/-- Apply an optional `e`/`E` exponent suffix to a parsed mantissa. -/
def applyExp (base : ℚ) (cs : List Char) : ℚ :=
  if cs.head? = some 'e' ∨ cs.head? = some 'E' then applySignedExp base cs.tail
  else base

/-- `parseFloat` on an unsigned character list: an `Infinity` literal,
or the longest prefix `digits [. digits] [e sign digits]`; `NaN` when no
number is present. -/
def parsePos (cs : List Char) : JSNum :=
  if cs.take 8 = "Infinity".data then JSNum.inf
  else
    let ds := cs.takeWhile isDigitCh
    match cs.dropWhile isDigitCh with
    | '.' :: fs =>
        let fds := fs.takeWhile isDigitCh
        if ds = [] ∧ fds = [] then JSNum.nan
        else JSNum.finite (applyExp (digitsVal ds fds) (fs.dropWhile isDigitCh))
    | rest => if ds = [] then JSNum.nan else JSNum.finite (applyExp (mkRat (natVal ds) 1) rest)

/-- JavaScript `parseFloat`: an optional sign, then an unsigned number
per `parsePos` (digits, an optional point and more digits, an optional
exponent suffix, or an `Infinity` literal); anything else is `NaN`. -/
def parseFloat (s : String) : JSNum :=
  if s.data.head? = some '-' then jsNeg (parsePos s.data.tail)
  else if s.data.head? = some '+' then parsePos s.data.tail
  else parsePos s.data

/-! ## Logging -/

/-- A log event emitted through the `Logger` collaborator. -/
inductive LogEvent where
| debug (msg : String)
| warn (msg : String)
| info (msg : String)
| error (msg : String)
deriving DecidableEq

/-- `Number.MAX_SAFE_INTEGER`. -/
def maxSafeInteger : ℚ := 9007199254740991

/-- `Calculator.highOrLowWarningLog`: warn when the displayed value
reaches the safe-integer bounds. -/
def warnLog (lcd : String) : List LogEvent :=
  if jsGe (parseFloat lcd) maxSafeInteger then
    [.warn "Number is greater than the maximum number"]
  else if jsLe (parseFloat lcd) (qNeg maxSafeInteger) then
    [.warn "Number is less than the maximum number"]
  else []

/-- The `debugLog` event emitted at the top of every button handler. -/
def debugEv : LogEvent := .debug "Button pressed."

/-! ## The calculator state and its button operations -/

/-- The mutable state of the `Calculator` class: the display string
`lcd`, the pending operand `arg` (`null` modelled as `none`), the pending
operator `lastOp`, and the `overwrite` and repeat flags.  (The source
field `repeat` is named `repeatMode` here because `repeat` is a Lean
keyword.) -/
structure CalcState where
  lcd : String
  arg : Option JSNum
  lastOp : Option Op
  overwrite : Bool
  repeatMode : Bool
deriving DecidableEq

/-- The constructor's initial state: display `0`, no pending operand or
operator, overwrite mode on, repeat mode off. -/
def initState : CalcState :=
  { lcd := "0", arg := none, lastOp := none, overwrite := true, repeatMode := false }

/-- The numeric value of `this.arg` as used in arithmetic: JavaScript
coerces `null` to `0` inside `+ - * /`. -/
def argNum (s : CalcState) : JSNum := s.arg.getD (JSNum.finite 0)

/-- `Calculator.digit(x)`: overwrite or append the digits of `x`. -/
def digit (s : CalcState) (x : Nat) : CalcState × List LogEvent :=
  if s.overwrite then
    let lcd' := String.mk (natToDigits x)
    ({ s with lcd := lcd', overwrite := false }, [debugEv] ++ warnLog lcd')
  else
    let lcd' := s.lcd ++ String.mk (natToDigits x)
    ({ s with lcd := lcd' }, [debugEv] ++ warnLog lcd')

/-- `Calculator.decimal()`: start `0.` in overwrite mode, else append a
point unless one is already present. -/
def decimal (s : CalcState) : CalcState × List LogEvent :=
  if s.overwrite then ({ s with lcd := "0.", overwrite := false }, [debugEv])
  else if s.lcd.data.contains '.' = false then ({ s with lcd := s.lcd ++ "." }, [debugEv])
  else (s, [debugEv])

/-- `Calculator.negate()`: in overwrite mode reset the display to `0`;
otherwise toggle a leading minus sign unless the display is exactly `0`.
(In the source the warning-log call is indented under the `else` branch
but, having no braces, runs after both branches of the inner `if`.) -/
def negate (s : CalcState) : CalcState × List LogEvent :=
  if s.overwrite then ({ s with lcd := "0", overwrite := false }, [debugEv])
  else if s.lcd ≠ "0" then
    let lcd' :=
      if s.lcd.data.head? = some '-' then String.mk s.lcd.data.tail else "-" ++ s.lcd
    ({ s with lcd := lcd' }, [debugEv] ++ warnLog lcd')
  else (s, [debugEv])

/-- `Calculator.op(o)`: always re-enables overwrite mode and clears
repeat mode.  With no pending operand (or in repeat mode) it records the
first operand; otherwise it collapses the pending operation onto the
display (a zero pending operand with `Div` logs an error but the division
still runs), then records the new operand and operator.  A `null`
`lastOp` matches no `switch` case and leaves the display unchanged. -/
def op (s : CalcState) (o : Op) : CalcState × List LogEvent :=
  if s.arg.isNone || s.repeatMode then
    ({ s with overwrite := true, lastOp := some o,
              arg := some (parseFloat s.lcd), repeatMode := false }, [debugEv])
  else
    let res : String × List LogEvent :=
      match s.lastOp with
      | some .Add =>
          let lcd' := numToString (jsAdd (argNum s) (parseFloat s.lcd))
          (lcd', warnLog lcd')
      | some .Sub =>
          let lcd' := numToString (jsSub (argNum s) (parseFloat s.lcd))
          (lcd', warnLog lcd')
      | some .Mul =>
          let lcd' := numToString (jsMul (argNum s) (parseFloat s.lcd))
          (lcd', warnLog lcd')
      | some .Div =>
          let lcd' := numToString (jsDiv (argNum s) (parseFloat s.lcd))
          (lcd', (if s.arg = some (JSNum.finite 0) then
                    [LogEvent.error "Divison by zero is not supported."] else []) ++ warnLog lcd')
      | none => (s.lcd, [])
    ({ s with overwrite := true, lcd := res.1, lastOp := some o,
              arg := some (parseFloat res.1), repeatMode := false },
     [debugEv] ++ res.2)

/-- `Calculator.equals()`: collapse the pending operation onto the
display.  For `Sub` in repeat mode the operand order is swapped; for
`Div` a zero pending operand logs an error and `break`s before the
division, leaving the display unchanged.  When repeat mode was off, the
previous display value is saved as the operand for future repeats; repeat
and overwrite mode are then enabled. -/
def equals (s : CalcState) : CalcState × List LogEvent :=
  let oldLcd := parseFloat s.lcd
  let res : String × List LogEvent :=
    match s.lastOp with
    | some .Add =>
        let lcd' := numToString (jsAdd (argNum s) (parseFloat s.lcd))
        (lcd', warnLog lcd')
    | some .Sub =>
        let lcd' :=
          if s.repeatMode then numToString (jsSub (parseFloat s.lcd) (argNum s))
          else numToString (jsSub (argNum s) (parseFloat s.lcd))
        (lcd', warnLog lcd')
    | some .Mul =>
        let lcd' := numToString (jsMul (argNum s) (parseFloat s.lcd))
        (lcd', warnLog lcd')
    | some .Div =>
        if s.arg = some (JSNum.finite 0) then
          (s.lcd, [LogEvent.error "Divison by zero is not supported."])
        else
          let lcd' := numToString (jsDiv (argNum s) (parseFloat s.lcd))
          (lcd', warnLog lcd')
    | none => (s.lcd, [])
  ({ s with lcd := res.1,
            arg := if s.repeatMode then s.arg else some oldLcd,
            repeatMode := true, overwrite := true },
   [debugEv] ++ res.2 ++ [.info "Overwrite is now enabled."])

/-- `Calculator.clear()`: a full reset of operand/operator/repeat when in
overwrite mode; always resets the display to `0` and re-enables
overwrite mode. -/
def clear (s : CalcState) : CalcState × List LogEvent :=
  let s1 := if s.overwrite then { s with arg := none, lastOp := none, repeatMode := false } else s
  ({ s1 with lcd := "0", overwrite := true },
   [debugEv, .info "Overwrite is now enabled."] ++ warnLog "0")

/-- `Calculator.square()`: square the displayed value in place. -/
def square (s : CalcState) : CalcState × List LogEvent :=
  let lcd' := numToString (jsMul (parseFloat s.lcd) (parseFloat s.lcd))
  ({ s with lcd := lcd' }, [debugEv] ++ warnLog lcd')

/-- `Calculator.percent()`: divide the displayed value by 100 in place. -/
def percent (s : CalcState) : CalcState × List LogEvent :=
  let lcd' := numToString (jsDiv (parseFloat s.lcd) (JSNum.finite 100))
  ({ s with lcd := lcd' }, [debugEv] ++ warnLog lcd')

/-! ## Buttons and reachability -/

/-- One calculator button press (digits restricted to 0–9). -/
inductive Button where
| digit (d : Fin 10)
| decimal
| negate
| op (o : Op)
| equals
| clear
| square
| percent

/-- The state after pressing button `b` in state `s`. -/
def applyButton (s : CalcState) : Button → CalcState
| .digit d => (digit s d.val).1
| .decimal => (decimal s).1
| .negate => (negate s).1
| .op o => (op s o).1
| .equals => (equals s).1
| .clear => (clear s).1
| .square => (square s).1
| .percent => (percent s).1

/-- The state after a sequence of button presses. -/
def run (s : CalcState) (bs : List Button) : CalcState := bs.foldl applyButton s

/-- States reachable from the initial state by button presses. -/
inductive Reachable : CalcState → Prop
| init : Reachable initState
| step (s : CalcState) (b : Button) : Reachable s → Reachable (applyButton s b)

/-! ## Syntactically valid numeric display strings

The spec's display invariant speaks of "a syntactically valid (possibly
negative, possibly with one decimal point) numeric string".  `validNum`
recognises `digits [. digits*]`, `validStr` allows one leading minus
sign. -/

/-- After the leading digit of a numeric string: more digits, optionally
followed by one decimal point and then only digits. -/
def validTail : List Char → Bool
| [] => true
| c :: rest => if c = '.' then rest.all isDigitCh else isDigitCh c && validTail rest

/-- An unsigned numeric string: a digit, then `validTail`. -/
def validNum : List Char → Bool
| [] => false
| c :: rest => isDigitCh c && validTail rest

/-- A possibly negative numeric character list: an optional leading
minus sign, then an unsigned numeric string. -/
def validStrL : List Char → Bool
| [] => false
| c :: rest => if c = '-' then validNum rest else validNum (c :: rest)

/-- A possibly negative numeric string. -/
def validStr (s : String) : Bool := validStrL s.data

/-! ### Displays extended by exponential notation

`Number.prototype.toString` renders magnitudes at least `1e21` or below
`1e-6` in exponential notation (`d[.ddd]e±NN`).  Such a display can then
be extended by the edit buttons: digits append to the exponent, and —
since an exponential display without a mantissa dot contains no `.` —
`decimal()` can append a decimal point after the exponent digits
(`"1e-8"` becomes `"1e-8."`).  The grammar below describes every display
body the machine can produce: digits, an optional dot with digits, and
an optional exponent part (sign and digits) itself optionally followed
by one dot and digits. -/

/-- Exponent marker suffix: an optional sign, then a nonempty digit run,
then optionally one appended decimal point and more digits (the shape
`validNum` already describes). -/
def expPart : List Char → Bool
| [] => false
| c :: rest => if c = '-' ∨ c = '+' then validNum rest else validNum (c :: rest)

/-- After the mantissa's decimal point: digits, then optionally an
exponent part introduced by `e`. -/
def fracE : List Char → Bool
| [] => true
| c :: rest => if c = 'e' then expPart rest else isDigitCh c && fracE rest

/-- After the leading mantissa digit: digits, then optionally a decimal
point with `fracE`, or directly an exponent part introduced by `e`. -/
def tailE : List Char → Bool
| [] => true
| c :: rest =>
    if c = 'e' then expPart rest
    else if c = '.' then fracE rest
    else isDigitCh c && tailE rest

/-- An unsigned display body: a digit, then `tailE`.  This extends
`validNum` by the exponential forms. -/
def validNumE : List Char → Bool
| [] => false
| c :: rest => isDigitCh c && tailE rest

/-- A possibly negative display body as a character list. -/
def validStrEL : List Char → Bool
| [] => false
| c :: rest => if c = '-' then validNumE rest else validNumE (c :: rest)

/-- A possibly negative display body: optional leading minus sign, then
plain or exponential numeric digits. -/
def validStrE (s : String) : Bool := validStrEL s.data

/-- A display string the calculator can legitimately show: a plain or
exponential numeric string, or one of the special float renderings. -/
def goodLcd (s : String) : Bool :=
  validStrE s || s = "Infinity" || s = "-Infinity" || s = "NaN"

/-! ### Digit-character lemmas -/

theorem digitChar_isDigit {n : Nat} (h : n < 10) : isDigitCh (digitChar n) = true := by
  interval_cases n <;> decide

theorem digitChar_eq_zero {n : Nat} (h : n < 10) (he : digitChar n = '0') : n = 0 := by
  interval_cases n <;> simp_all <;> revert he <;> decide

theorem isDigitCh_ne_dot {c : Char} (h : isDigitCh c = true) : c ≠ '.' := by
  intro he; subst he; exact absurd h (by decide)

theorem isDigitCh_ne_minus {c : Char} (h : isDigitCh c = true) : c ≠ '-' := by
  intro he; subst he; exact absurd h (by decide)

theorem isDigitCh_ne_plus {c : Char} (h : isDigitCh c = true) : c ≠ '+' := by
  intro he; subst he; exact absurd h (by decide)

theorem isDigitCh_ne_upper_i {c : Char} (h : isDigitCh c = true) : c ≠ 'I' := by
  intro he; subst he; exact absurd h (by decide)

/-! ### `validTail` and `validNum` closure lemmas -/

theorem validTail_of_all_digits {t : List Char} (h : t.all isDigitCh = true) :
    validTail t = true := by
  induction t with
  | nil => rfl
  | cons c rest ih =>
      simp only [List.all_cons, Bool.and_eq_true] at h
      simp [validTail, isDigitCh_ne_dot h.1, h.1, ih h.2]

theorem validNum_of_all_digits {t : List Char} (h : t.all isDigitCh = true) (hne : t ≠ []) :
    validNum t = true := by
  cases t with
  | nil => exact absurd rfl hne
  | cons c rest =>
      simp only [List.all_cons, Bool.and_eq_true] at h
      simp [validNum, h.1, validTail_of_all_digits h.2]

theorem validTail_append_digits {t ds : List Char} (h : validTail t = true)
    (hd : ds.all isDigitCh = true) : validTail (t ++ ds) = true := by
  induction t with
  | nil => exact validTail_of_all_digits hd
  | cons c rest ih =>
      by_cases hc : c = '.'
      · subst hc
        simp_all [validTail, List.all_append]
      · simp [validTail, hc] at h ⊢
        exact ⟨h.1, ih h.2⟩

theorem validNum_append_digits {t ds : List Char} (h : validNum t = true)
    (hd : ds.all isDigitCh = true) : validNum (t ++ ds) = true := by
  cases t with
  | nil => exact absurd h (by simp [validNum])
  | cons c rest =>
      simp [validNum] at h ⊢
      exact ⟨h.1, validTail_append_digits h.2 hd⟩

theorem validTail_append_dot {t : List Char} (h : validTail t = true)
    (hnd : '.' ∉ t) : validTail (t ++ ['.']) = true := by
  induction t with
  | nil => rfl
  | cons c rest ih =>
      simp only [List.mem_cons, not_or] at hnd
      have hc : c ≠ '.' := fun he => hnd.1 he.symm
      simp [validTail, hc] at h ⊢
      exact ⟨h.1, ih h.2 hnd.2⟩

theorem validNum_append_dot {t : List Char} (h : validNum t = true)
    (hnd : '.' ∉ t) : validNum (t ++ ['.']) = true := by
  cases t with
  | nil => exact absurd h (by simp [validNum])
  | cons c rest =>
      simp only [List.mem_cons, not_or] at hnd
      simp [validNum] at h ⊢
      exact ⟨h.1, validTail_append_dot h.2 hnd.2⟩

theorem validTail_digits_dot_digits {t fs : List Char} (ht : t.all isDigitCh = true)
    (hf : fs.all isDigitCh = true) : validTail (t ++ '.' :: fs) = true := by
  induction t with
  | nil => simp [validTail, hf]
  | cons c rest ih =>
      simp only [List.all_cons, Bool.and_eq_true] at ht
      simp [validTail, isDigitCh_ne_dot ht.1, ht.1, ih ht.2]

/-! ### Lemmas about the digit expansions -/

theorem natToDigitsAux_all {fuel n : Nat} (h : n < fuel) :
    (natToDigitsAux fuel n).all isDigitCh = true := by
  induction fuel generalizing n with
  | zero => omega
  | succ fuel ih =>
      by_cases h10 : n < 10
      · simp [natToDigitsAux, h10, digitChar_isDigit h10]
      · have hdiv : n / 10 < n := Nat.div_lt_self (by omega) (by omega)
        have hfu : n / 10 < fuel := by omega
        simp [natToDigitsAux, h10, List.all_append, ih hfu,
          digitChar_isDigit (Nat.mod_lt n (by omega))]

theorem natToDigitsAux_ne_nil {fuel n : Nat} (h : n < fuel) :
    natToDigitsAux fuel n ≠ [] := by
  cases fuel with
  | zero => omega
  | succ fuel =>
      by_cases h10 : n < 10
      · simp [natToDigitsAux, if_pos h10]
      · simp [natToDigitsAux, if_neg h10]

theorem natToDigits_all (n : Nat) : (natToDigits n).all isDigitCh = true :=
  natToDigitsAux_all (Nat.lt_succ_self n)

theorem natToDigits_ne_nil (n : Nat) : natToDigits n ≠ [] :=
  natToDigitsAux_ne_nil (Nat.lt_succ_self n)

theorem natToDigitsAux_eq_zero {fuel n : Nat} (h : n < fuel)
    (he : natToDigitsAux fuel n = ['0']) : n = 0 := by
  cases fuel with
  | zero => omega
  | succ fuel =>
      by_cases h10 : n < 10
      · simp only [natToDigitsAux, if_pos h10, List.cons.injEq, and_true] at he
        exact digitChar_eq_zero h10 he
      · exfalso
        simp only [natToDigitsAux, if_neg h10] at he
        have hdiv : n / 10 < n := Nat.div_lt_self (by omega) (by omega)
        have hfu : n / 10 < fuel := by omega
        have hnn := natToDigitsAux_ne_nil hfu
        cases hx : natToDigitsAux fuel (n / 10) with
        | nil => exact hnn hx
        | cons a t => rw [hx] at he; simp at he

theorem natToDigits_eq_zero {n : Nat} (he : natToDigits n = ['0']) : n = 0 :=
  natToDigitsAux_eq_zero (Nat.lt_succ_self n) he

theorem fracDigits_all {den : Nat} (hden : 0 < den) :
    ∀ (fuel num : Nat), num < den → (fracDigits num den fuel).all isDigitCh = true := by
  intro fuel
  induction fuel with
  | zero => intro num _; rfl
  | succ fuel ih =>
      intro num hlt
      have hdg : num * 10 / den < 10 := by
        rw [Nat.div_lt_iff_lt_mul hden]; omega
      simp only [fracDigits, List.all_cons, digitChar_isDigit hdg, Bool.true_and]
      split
      · rfl
      · exact ih _ (Nat.mod_lt _ hden)

/-! ### Lemmas about the extended display grammar -/

theorem isDigitCh_ne_e {c : Char} (h : isDigitCh c = true) : c ≠ 'e' := by
  intro he; subst he; exact absurd h (by decide)

theorem fracE_of_all_digits {t : List Char} (h : t.all isDigitCh = true) :
    fracE t = true := by
  induction t with
  | nil => rfl
  | cons c rest ih =>
      simp only [List.all_cons, Bool.and_eq_true] at h
      simp [fracE, isDigitCh_ne_e h.1, h.1, ih h.2]

theorem tailE_of_validTail {t : List Char} (h : validTail t = true) : tailE t = true := by
  induction t with
  | nil => rfl
  | cons c rest ih =>
      by_cases hc : c = '.'
      · subst hc
        simp only [validTail, if_pos rfl] at h
        simp [tailE, fracE_of_all_digits h]
      · simp [validTail, hc] at h
        simp [tailE, isDigitCh_ne_e h.1, hc, h.1, ih h.2]

theorem validNumE_of_validNum {cs : List Char} (h : validNum cs = true) :
    validNumE cs = true := by
  cases cs with
  | nil => exact absurd h (by simp [validNum])
  | cons c rest =>
      simp only [validNum, Bool.and_eq_true] at h
      simp [validNumE, h.1, tailE_of_validTail h.2]

theorem expPart_append_digits {t ds : List Char} (h : expPart t = true)
    (hd : ds.all isDigitCh = true) : expPart (t ++ ds) = true := by
  cases t with
  | nil => exact absurd h (by simp [expPart])
  | cons c rest =>
      have h2 : (if c = '-' ∨ c = '+' then validNum rest else validNum (c :: rest)) = true := h
      show (if c = '-' ∨ c = '+' then validNum (rest ++ ds)
            else validNum (c :: rest ++ ds)) = true
      by_cases hc : c = '-' ∨ c = '+'
      · rw [if_pos hc] at h2 ⊢
        exact validNum_append_digits h2 hd
      · rw [if_neg hc] at h2 ⊢
        exact validNum_append_digits h2 hd

theorem fracE_append_digits {t ds : List Char} (h : fracE t = true)
    (hd : ds.all isDigitCh = true) : fracE (t ++ ds) = true := by
  induction t with
  | nil => exact fracE_of_all_digits hd
  | cons c rest ih =>
      by_cases hc : c = 'e'
      · subst hc
        simp only [fracE, if_pos rfl] at h ⊢
        exact expPart_append_digits h hd
      · simp [fracE, hc] at h ⊢
        exact ⟨h.1, ih h.2⟩

theorem tailE_append_digits {t ds : List Char} (h : tailE t = true)
    (hd : ds.all isDigitCh = true) : tailE (t ++ ds) = true := by
  induction t with
  | nil => exact tailE_of_validTail (validTail_of_all_digits hd)
  | cons c rest ih =>
      by_cases hce : c = 'e'
      · subst hce
        simp only [tailE, if_pos rfl] at h ⊢
        exact expPart_append_digits h hd
      · by_cases hcd : c = '.'
        · subst hcd
          simp only [List.cons_append]
          simp [tailE] at h ⊢
          exact fracE_append_digits h hd
        · simp [tailE, hce, hcd] at h ⊢
          exact ⟨h.1, ih h.2⟩

theorem validNumE_append_digits {t ds : List Char} (h : validNumE t = true)
    (hd : ds.all isDigitCh = true) : validNumE (t ++ ds) = true := by
  cases t with
  | nil => exact absurd h (by simp [validNumE])
  | cons c rest =>
      simp [validNumE] at h ⊢
      exact ⟨h.1, tailE_append_digits h.2 hd⟩

theorem expPart_append_dot {t : List Char} (h : expPart t = true)
    (hnd : '.' ∉ t) : expPart (t ++ ['.']) = true := by
  cases t with
  | nil => exact absurd h (by simp [expPart])
  | cons c rest =>
      simp only [List.mem_cons, not_or] at hnd
      have h2 : (if c = '-' ∨ c = '+' then validNum rest else validNum (c :: rest)) = true := h
      show (if c = '-' ∨ c = '+' then validNum (rest ++ ['.'])
            else validNum (c :: rest ++ ['.'])) = true
      by_cases hc : c = '-' ∨ c = '+'
      · rw [if_pos hc] at h2 ⊢
        exact validNum_append_dot h2 hnd.2
      · rw [if_neg hc] at h2 ⊢
        refine validNum_append_dot h2 ?_
        simp only [List.mem_cons, not_or]
        exact hnd

theorem tailE_append_dot {t : List Char} (h : tailE t = true)
    (hnd : '.' ∉ t) : tailE (t ++ ['.']) = true := by
  induction t with
  | nil => rfl
  | cons c rest ih =>
      simp only [List.mem_cons, not_or] at hnd
      by_cases hce : c = 'e'
      · subst hce
        simp only [tailE, if_pos rfl] at h ⊢
        exact expPart_append_dot h hnd.2
      · have hcd : c ≠ '.' := fun he => hnd.1 he.symm
        simp [tailE, hce, hcd] at h ⊢
        exact ⟨h.1, ih h.2 hnd.2⟩

theorem validNumE_append_dot {t : List Char} (h : validNumE t = true)
    (hnd : '.' ∉ t) : validNumE (t ++ ['.']) = true := by
  cases t with
  | nil => exact absurd h (by simp [validNumE])
  | cons c rest =>
      simp only [List.mem_cons, not_or] at hnd
      simp [validNumE] at h ⊢
      exact ⟨h.1, tailE_append_dot h.2 hnd.2⟩

theorem fracE_digits_exp {rest x : List Char} (hr : rest.all isDigitCh = true)
    (hx : expPart x = true) : fracE (rest ++ 'e' :: x) = true := by
  induction rest with
  | nil => simp [fracE, hx]
  | cons c t ih =>
      simp only [List.all_cons, Bool.and_eq_true] at hr
      simp [fracE, isDigitCh_ne_e hr.1, hr.1, ih hr.2]

theorem mantissaFormat_ne_nil (m : List Char) : mantissaFormat m ≠ [] := by
  cases m with
  | nil => simp [mantissaFormat]
  | cons c rest => cases rest <;> simp [mantissaFormat]

theorem trimZeros_all_digits {l : List Char} (h : l.all isDigitCh = true) :
    (trimZeros l).all isDigitCh = true := by
  induction l with
  | nil => rfl
  | cons c rest ih =>
      simp only [List.all_cons, Bool.and_eq_true] at h
      have ih2 := ih h.2
      rw [trimZeros]
      cases htr : trimZeros rest with
      | nil =>
          by_cases hc : c = '0'
          · simp [hc]
          · simp [hc, h.1]
      | cons a t =>
          rw [htr] at ih2
          simp [List.all_cons, h.1, ih2]

theorem expFormat_validNumE {m x : List Char} (hm : m.all isDigitCh = true)
    (hx : expPart x = true) : validNumE (mantissaFormat m ++ 'e' :: x) = true := by
  cases m with
  | nil =>
      have h0 : isDigitCh '0' = true := by decide
      simp only [mantissaFormat, List.cons_append, List.nil_append]
      simp [validNumE, tailE, hx, h0]
  | cons c rest =>
      simp only [List.all_cons, Bool.and_eq_true] at hm
      cases rest with
      | nil =>
          simp only [mantissaFormat, List.cons_append, List.nil_append]
          simp [validNumE, tailE, hm.1, hx]
      | cons c2 t2 =>
          simp only [mantissaFormat, List.cons_append]
          simp only [validNumE, hm.1, Bool.true_and]
          simp [tailE]
          exact fracE_digits_exp hm.2 hx

theorem expFormat_ne_single_zero (m x : List Char) :
    mantissaFormat m ++ 'e' :: x ≠ ['0'] := by
  intro he
  have hlen := congrArg List.length he
  rw [List.length_append, List.length_cons] at hlen
  have hm := List.length_pos.mpr (mantissaFormat_ne_nil m)
  simp at hlen
  omega

/-! ### Validity of printed numbers -/

theorem ratPosChars_validNum (q : ℚ) : validNum (ratPosChars q) = true := by
  have hden : 0 < q.den := q.pos
  have hall := natToDigits_all (q.num.toNat / q.den)
  have hne := natToDigits_ne_nil (q.num.toNat / q.den)
  rw [ratPosChars]
  split
  · simpa using validNum_of_all_digits hall hne
  · cases hx : natToDigits (q.num.toNat / q.den) with
    | nil => exact absurd hx hne
    | cons c t =>
        rw [hx] at hall
        simp only [List.all_cons, Bool.and_eq_true] at hall
        simp only [List.cons_append, validNum, hall.1, Bool.true_and]
        exact validTail_digits_dot_digits hall.2
          (fracDigits_all hden 20 _ (Nat.mod_lt _ hden))

theorem ratPosChars_ne_single_zero {q : ℚ} (hq : 0 < q) :
    ratPosChars q ≠ ['0'] := by
  intro he
  have hden : 0 < q.den := q.pos
  have hnum : 0 < q.num := Rat.num_pos.mpr hq
  rw [ratPosChars] at he
  by_cases hmod : q.num.toNat % q.den = 0
  · rw [if_pos hmod] at he
    simp only [List.append_nil] at he
    have hdiv := natToDigits_eq_zero he
    have hdm := Nat.div_add_mod q.num.toNat q.den
    rw [hdiv, hmod] at hdm
    have hpos : 0 < q.num.toNat := by omega
    omega
  · rw [if_neg (by omega)] at he
    have hne := natToDigits_ne_nil (q.num.toNat / q.den)
    cases hx : natToDigits (q.num.toNat / q.den) with
    | nil => exact hne hx
    | cons c t => rw [hx] at he; simp at he

theorem validNumE_head_digit {c : Char} {t : List Char} (h : validNumE (c :: t) = true) :
    isDigitCh c = true := by
  simp only [validNumE, Bool.and_eq_true] at h
  exact h.1

theorem expPart_sign {sg : Char} (hs : sg = '-' ∨ sg = '+') {ds : List Char}
    (h : validNum ds = true) : expPart (sg :: ds) = true := by
  show (if sg = '-' ∨ sg = '+' then validNum ds else validNum (sg :: ds)) = true
  rw [if_pos hs]
  exact h

theorem ratBodyChars_validNumE (q : ℚ) : validNumE (ratBodyChars q) = true := by
  have hden : 0 < q.den := q.pos
  rw [ratBodyChars]
  split
  · exact validNumE_of_validNum (ratPosChars_validNum q)
  split
  · exact validNumE_of_validNum (ratPosChars_validNum q)
  split
  · simp only [expSmallChars]
    refine expFormat_validNumE ?_ (expPart_sign (Or.inl rfl)
      (validNum_of_all_digits (natToDigits_all _) (natToDigits_ne_nil _)))
    apply trimZeros_all_digits
    rw [List.all_append]
    rw [Bool.and_eq_true]
    refine ⟨natToDigits_all _, ?_⟩
    split
    · rfl
    · exact fracDigits_all hden 20 _ (Nat.mod_lt _ hden)
  · simp only [expLargeChars]
    refine expFormat_validNumE ?_ (expPart_sign (Or.inr rfl)
      (validNum_of_all_digits (natToDigits_all _) (natToDigits_ne_nil _)))
    apply trimZeros_all_digits
    rw [List.all_append]
    rw [Bool.and_eq_true]
    refine ⟨natToDigits_all _, ?_⟩
    split
    · rfl
    · exact fracDigits_all hden 20 _ (Nat.mod_lt _ hden)

theorem ratBodyChars_pos_ne_single_zero {q : ℚ} (hq : 0 < q) :
    ratBodyChars q ≠ ['0'] := by
  rw [ratBodyChars]
  split
  · exact ratPosChars_ne_single_zero hq
  split
  case isTrue h0 => exact absurd h0 (ne_of_gt hq)
  split
  · simp only [expSmallChars]
    exact expFormat_ne_single_zero _ _
  · simp only [expLargeChars]
    exact expFormat_ne_single_zero _ _

theorem validStrE_mk_of_validNumE {cs : List Char} (h : validNumE cs = true) :
    validStrE (String.mk cs) = true := by
  cases cs with
  | nil => exact absurd h (by simp [validNumE])
  | cons c t =>
      have hd := validNumE_head_digit h
      simp [validStrE, validStrEL, isDigitCh_ne_minus hd, h]

theorem numToString_finite_validStrE (q : ℚ) :
    validStrE (numToString (JSNum.finite q)) = true := by
  rw [numToString]
  split
  · simp [validStrE, validStrEL, ratBodyChars_validNumE]
  · exact validStrE_mk_of_validNumE (ratBodyChars_validNumE q)

theorem goodLcd_numToString (x : JSNum) : goodLcd (numToString x) = true := by
  cases x with
  | finite q => simp [goodLcd, numToString_finite_validStrE]
  | inf => simp [goodLcd, numToString]
  | negInf => simp [goodLcd, numToString]
  | nan => simp [goodLcd, numToString]

theorem numToString_ne_neg_zero (x : JSNum) : numToString x ≠ "-0" := by
  cases x with
  | inf => decide
  | negInf => decide
  | nan => decide
  | finite q =>
      rw [numToString]
      split
      case isTrue hq =>
        intro he
        have hdata : '-' :: ratBodyChars (qNeg q) = ['-', '0'] := congrArg String.data he
        simp only [List.cons.injEq, true_and] at hdata
        have hpos : 0 < qNeg q := by rw [qNeg_eq]; exact neg_pos.mpr hq
        exact ratBodyChars_pos_ne_single_zero hpos hdata
      case isFalse hq =>
        intro he
        have hdata : ratBodyChars q = ['-', '0'] := congrArg String.data he
        have hv := ratBodyChars_validNumE q
        rw [hdata] at hv
        simp only [validNumE, Bool.and_eq_true] at hv
        exact isDigitCh_ne_minus hv.1 rfl

/-! ### Valid numeric strings parse to finite numbers -/

theorem parsePosE_finite {c : Char} {t : List Char} (h : isDigitCh c = true) :
    ∃ q, parsePos (c :: t) = JSNum.finite q := by
  have hinf : ¬ ((c :: t).take 8 = "Infinity".data) := by
    intro he
    rw [show ("Infinity".data) = 'I' :: "nfinity".data from rfl] at he
    simp only [List.take_succ_cons, List.cons.injEq] at he
    exact isDigitCh_ne_upper_i h he.1
  have hne : (c :: t).takeWhile isDigitCh ≠ [] := by
    rw [List.takeWhile_cons_of_pos h]
    simp
  rw [parsePos, if_neg hinf]
  split
  · rw [if_neg (by simp [hne])]
    exact ⟨_, rfl⟩
  · rw [if_neg hne]
    exact ⟨_, rfl⟩

theorem validStrE_of_validStr {s : String} (h : validStr s = true) : validStrE s = true := by
  rcases hdata : s.data with _ | ⟨c, rest⟩
  · simp only [validStr, validStrL, hdata] at h
    exact Bool.noConfusion h
  · simp only [validStr, validStrL, hdata] at h
    simp only [validStrE, validStrEL, hdata]
    by_cases hc : c = '-'
    · subst hc
      rw [if_pos rfl] at h ⊢
      exact validNumE_of_validNum h
    · rw [if_neg hc] at h ⊢
      exact validNumE_of_validNum h

theorem goodLcd_of_validStrE {s : String} (h : validStrE s = true) : goodLcd s = true := by
  simp [goodLcd, h]

theorem validStrE_nonempty {s : String} (h : validStrE s = true) : s.data ≠ [] := by
  intro he
  simp only [validStrE, validStrEL, he] at h
  exact Bool.noConfusion h

theorem validNumE_of_validStrE_head_not_minus {s : String} (h : validStrE s = true)
    (hh : s.data.head? ≠ some '-') : validNumE s.data = true := by
  rcases hdata : s.data with _ | ⟨c, rest⟩
  · exact absurd hdata (validStrE_nonempty h)
  · simp only [validStrE, validStrEL, hdata] at h
    rw [hdata] at hh
    have hh2 : c ≠ '-' := fun he => hh (by rw [he]; rfl)
    rwa [if_neg hh2] at h

theorem validNumE_tail_of_minus {s : String} (h : validStrE s = true)
    (hh : s.data.head? = some '-') : validNumE s.data.tail = true := by
  rcases hdata : s.data with _ | ⟨c, rest⟩
  · exact absurd hdata (validStrE_nonempty h)
  · simp only [validStrE, validStrEL, hdata] at h
    rw [hdata] at hh
    simp only [List.head?_cons, Option.some.injEq] at hh
    subst hh
    rw [List.tail_cons]
    rwa [if_pos rfl] at h

theorem validStrE_append_digits {s : String} {ds : List Char} (h : validStrE s = true)
    (hd : ds.all isDigitCh = true) : validStrE (s ++ String.mk ds) = true := by
  rcases hdata : s.data with _ | ⟨c, rest⟩
  · exact absurd hdata (validStrE_nonempty h)
  · simp only [validStrE, validStrEL, hdata] at h
    have hdd : (s ++ String.mk ds).data = c :: (rest ++ ds) := by
      rw [String.data_append, hdata]; rfl
    simp only [validStrE, validStrEL, hdd]
    by_cases hc : c = '-'
    · subst hc
      rw [if_pos rfl] at h ⊢
      exact validNumE_append_digits h hd
    · rw [if_neg hc] at h ⊢
      rw [show (c :: (rest ++ ds)) = (c :: rest) ++ ds from rfl]
      exact validNumE_append_digits h hd

theorem append_digits_ne_neg_zero {s : String} {ds : List Char} (h : validStrE s = true)
    (hne : ds ≠ []) : s ++ String.mk ds ≠ "-0" := by
  intro he
  have hd : s.data ++ ds = ['-', '0'] := by
    have := congrArg String.data he
    rwa [String.data_append] at this
  rcases hdata : s.data with _ | ⟨c, rest⟩
  · exact absurd hdata (validStrE_nonempty h)
  · rw [hdata] at hd
    simp only [List.cons_append, List.cons.injEq] at hd
    rcases hd with ⟨rfl, hd⟩
    cases rest with
    | nil =>
        simp only [validStrE, validStrEL, hdata] at h
        simp [validNumE] at h
    | cons x t =>
        simp only [List.cons_append, List.cons.injEq] at hd
        rcases hd with ⟨rfl, hd⟩
        exact hne (List.append_eq_nil.mp hd).2

theorem contains_false_not_mem {l : List Char} {c : Char} (h : l.contains c = false) :
    c ∉ l := by
  intro hm
  have hc : l.contains c = true := by
    rw [List.contains_eq_any_beq]
    exact List.any_eq_true.mpr ⟨c, hm, by simp⟩
  rw [hc] at h
  exact Bool.noConfusion h

theorem validStrE_append_dot {s : String} (h : validStrE s = true)
    (hnd : s.data.contains '.' = false) : validStrE (s ++ ".") = true := by
  have hmem := contains_false_not_mem hnd
  rcases hdata : s.data with _ | ⟨c, rest⟩
  · exact absurd hdata (validStrE_nonempty h)
  · simp only [validStrE, validStrEL, hdata] at h
    rw [hdata] at hmem
    simp only [List.mem_cons, not_or] at hmem
    have hdd : (s ++ ".").data = c :: (rest ++ ['.']) := by
      rw [String.data_append, hdata]; rfl
    simp only [validStrE, validStrEL, hdd]
    by_cases hc : c = '-'
    · subst hc
      rw [if_pos rfl] at h ⊢
      exact validNumE_append_dot h hmem.2
    · rw [if_neg hc] at h ⊢
      rw [show (c :: (rest ++ ['.'])) = (c :: rest) ++ ['.'] from rfl]
      refine validNumE_append_dot h ?_
      simp only [List.mem_cons, not_or]
      exact hmem

theorem append_dot_ne_neg_zero {s : String} (h : validStrE s = true) : s ++ "." ≠ "-0" := by
  intro he
  have hd : s.data ++ ['.'] = ['-', '0'] := by
    have := congrArg String.data he
    rwa [String.data_append] at this
  rcases hdata : s.data with _ | ⟨c, rest⟩
  · exact absurd hdata (validStrE_nonempty h)
  · rw [hdata] at hd
    simp only [List.cons_append, List.cons.injEq] at hd
    rcases hd with ⟨rfl, hd⟩
    cases rest with
    | nil => simp at hd
    | cons x t =>
        simp only [List.cons_append, List.cons.injEq] at hd
        rcases hd with ⟨rfl, hd⟩
        exact absurd hd (by simp)

theorem parseFloat_finiteE {s : String} (h : validStrE s = true) :
    ∃ q, parseFloat s = JSNum.finite q := by
  rcases hdata : s.data with _ | ⟨c, rest⟩
  · exact absurd hdata (validStrE_nonempty h)
  · simp only [validStrE, validStrEL, hdata] at h
    by_cases hc : c = '-'
    · subst hc
      rw [if_pos rfl] at h
      rcases hr : rest with _ | ⟨c2, t2⟩
      · rw [hr] at h
        exact absurd h (by simp [validNumE])
      · subst hr
        have hd2 : isDigitCh c2 = true := validNumE_head_digit h
        obtain ⟨q, hq⟩ := parsePosE_finite hd2 (t := t2)
        refine ⟨qNeg q, ?_⟩
        rw [parseFloat, hdata]
        simp [hq, jsNeg]
    · rw [if_neg hc] at h
      have hnum : isDigitCh c = true := by
        cases hv : validNumE (c :: rest) with
        | false => rw [hv] at h; exact absurd h (by simp)
        | true => exact validNumE_head_digit hv
      rw [parseFloat, hdata]
      rw [if_neg (by simp [hc]), if_neg (by simp [isDigitCh_ne_plus hnum])]
      exact parsePosE_finite hnum

/-- Invariant maintained by every button press: the display is a plain
or exponential numeric string or a special float rendering, it is never
the string `-0`, and in append mode it is always a plain or exponential
numeric string (never one of the specials). -/
def Inv (s : CalcState) : Prop :=
  goodLcd s.lcd = true ∧ s.lcd ≠ "-0" ∧ (s.overwrite = false → validStrE s.lcd = true)

theorem inv_init : Inv initState := by
  refine ⟨by decide, by decide, ?_⟩
  intro h
  exact absurd h (by decide)


/-! ## Field characterisations and invariant preservation per button -/

theorem op_flags (s : CalcState) (o : Op) :
    (op s o).1.overwrite = true ∧ (op s o).1.lastOp = some o ∧
      (op s o).1.repeatMode = false ∧ (op s o).1.arg.isSome = true := by
  rw [op]
  split
  · simp
  · simp

theorem op_lcd (s : CalcState) (o : Op) :
    (op s o).1.lcd = s.lcd ∨ ∃ x, (op s o).1.lcd = numToString x := by
  rw [op]
  split
  · left; rfl
  · rcases hL : s.lastOp with _ | o2
    · simp [hL]
    · cases o2 <;> simp [hL]

theorem equals_flags (s : CalcState) :
    (equals s).1.overwrite = true ∧ (equals s).1.lastOp = s.lastOp ∧
      (equals s).1.repeatMode = true ∧
      (equals s).1.arg = (if s.repeatMode then s.arg else some (parseFloat s.lcd)) := by
  rw [equals]
  simp

theorem equals_lcd (s : CalcState) :
    (equals s).1.lcd = s.lcd ∨ ∃ x, (equals s).1.lcd = numToString x := by
  rw [equals]
  rcases hL : s.lastOp with _ | o2
  · simp [hL]
  · cases o2 with
    | Add => right; exact ⟨jsAdd (argNum s) (parseFloat s.lcd), by simp [hL]⟩
    | Sub =>
        right
        by_cases hr : s.repeatMode = true <;> simp [hL, hr]
    | Mul => right; exact ⟨jsMul (argNum s) (parseFloat s.lcd), by simp [hL]⟩
    | Div =>
        by_cases hz : s.arg = some (JSNum.finite 0)
        · left; simp [hL, hz]
        · right; simp [hL, hz]

theorem all_digits_ne_neg_zero {ds : List Char} (h : ds.all isDigitCh = true) :
    String.mk ds ≠ "-0" := by
  intro he
  have hd : ds = ['-', '0'] := congrArg String.data he
  rw [hd] at h
  simp only [List.all_cons, Bool.and_eq_true] at h
  exact absurd h.1 (by decide)

theorem validNumE_mk_ne_neg_zero {cs : List Char} (h : validNumE cs = true) :
    String.mk cs ≠ "-0" := by
  intro he
  have hd : cs = ['-', '0'] := congrArg String.data he
  rw [hd] at h
  exact absurd (validNumE_head_digit h) (by decide)

theorem validStrE_minus_append {s : String} (h : validNumE s.data = true) :
    validStrE ("-" ++ s) = true := by
  have hd : ("-" ++ s).data = '-' :: s.data := by rw [String.data_append]; rfl
  simp only [validStrE, validStrEL, hd, if_pos rfl]
  exact h

theorem inv_digit (s : CalcState) (x : Nat) (h : Inv s) : Inv ((digit s x).1) := by
  obtain ⟨h1, h2, h3⟩ := h
  rw [digit]
  split
  case isTrue hov =>
    have hv : validStrE (String.mk (natToDigits x)) = true :=
      validStrE_mk_of_validNumE
        (validNumE_of_validNum
          (validNum_of_all_digits (natToDigits_all x) (natToDigits_ne_nil x)))
    exact ⟨goodLcd_of_validStrE hv, all_digits_ne_neg_zero (natToDigits_all x), fun _ => hv⟩
  case isFalse hov =>
    have hvs : validStrE s.lcd = true := h3 (by revert hov; cases s.overwrite <;> simp)
    have hv := validStrE_append_digits hvs (natToDigits_all x)
    exact ⟨goodLcd_of_validStrE hv,
      append_digits_ne_neg_zero hvs (natToDigits_ne_nil x), fun _ => hv⟩

theorem inv_decimal (s : CalcState) (h : Inv s) : Inv ((decimal s).1) := by
  obtain ⟨h1, h2, h3⟩ := h
  rw [decimal]
  split
  case isTrue hov =>
    refine ⟨?_, ?_, fun _ => ?_⟩
    · show goodLcd "0." = true
      decide
    · show ("0." : String) ≠ "-0"
      decide
    · show validStr "0." = true
      decide
  case isFalse hov =>
    split
    case isTrue hnd =>
      have hvs : validStrE s.lcd = true := h3 (by revert hov; cases s.overwrite <;> simp)
      have hv := validStrE_append_dot hvs hnd
      exact ⟨goodLcd_of_validStrE hv, append_dot_ne_neg_zero hvs, fun _ => hv⟩
    case isFalse hnd => exact ⟨h1, h2, h3⟩

theorem inv_negate (s : CalcState) (h : Inv s) : Inv ((negate s).1) := by
  obtain ⟨h1, h2, h3⟩ := h
  rw [negate]
  split
  case isTrue hov =>
    refine ⟨?_, ?_, fun _ => ?_⟩
    · show goodLcd "0" = true
      decide
    · show ("0" : String) ≠ "-0"
      decide
    · show validStr "0" = true
      decide
  case isFalse hov =>
    split
    case isTrue hne =>
      have hvs : validStrE s.lcd = true := h3 (by revert hov; cases s.overwrite <;> simp)
      by_cases hh : s.lcd.data.head? = some '-'
      · simp only [if_pos hh]
        have hv0 := validNumE_tail_of_minus hvs hh
        have hv := validStrE_mk_of_validNumE hv0
        exact ⟨goodLcd_of_validStrE hv, validNumE_mk_ne_neg_zero hv0, fun _ => hv⟩
      · simp only [if_neg hh]
        have hv0 := validNumE_of_validStrE_head_not_minus hvs hh
        have hv := validStrE_minus_append hv0
        refine ⟨goodLcd_of_validStrE hv, ?_, fun _ => hv⟩
        intro he
        have hd : '-' :: s.lcd.data = ['-', '0'] := by
          have := congrArg String.data he
          rwa [String.data_append] at this
        simp only [List.cons.injEq, true_and] at hd
        exact hne (String.ext_iff.mpr hd)
    case isFalse hne => exact ⟨h1, h2, h3⟩

theorem inv_op (s : CalcState) (o : Op) (h : Inv s) : Inv ((op s o).1) := by
  obtain ⟨h1, h2, h3⟩ := h
  obtain ⟨hov, -, -, -⟩ := op_flags s o
  have hvac : (op s o).1.overwrite = false → validStrE (op s o).1.lcd = true := by
    intro hc; rw [hov] at hc; exact Bool.noConfusion hc
  rcases op_lcd s o with hl | ⟨x, hl⟩
  · exact ⟨by rw [hl]; exact h1, by rw [hl]; exact h2, hvac⟩
  · exact ⟨by rw [hl]; exact goodLcd_numToString x,
      by rw [hl]; exact numToString_ne_neg_zero x, hvac⟩

theorem inv_equals (s : CalcState) (h : Inv s) : Inv ((equals s).1) := by
  obtain ⟨h1, h2, h3⟩ := h
  obtain ⟨hov, -, -, -⟩ := equals_flags s
  have hvac : (equals s).1.overwrite = false → validStrE (equals s).1.lcd = true := by
    intro hc; rw [hov] at hc; exact Bool.noConfusion hc
  rcases equals_lcd s with hl | ⟨x, hl⟩
  · exact ⟨by rw [hl]; exact h1, by rw [hl]; exact h2, hvac⟩
  · exact ⟨by rw [hl]; exact goodLcd_numToString x,
      by rw [hl]; exact numToString_ne_neg_zero x, hvac⟩

theorem inv_clear (s : CalcState) (_h : Inv s) : Inv ((clear s).1) := by
  rw [clear]
  refine ⟨?_, ?_, fun hc => Bool.noConfusion hc⟩
  · show goodLcd "0" = true
    decide
  · show ("0" : String) ≠ "-0"
    decide

theorem inv_square (s : CalcState) (h : Inv s) : Inv ((square s).1) := by
  obtain ⟨h1, h2, h3⟩ := h
  rw [square]
  refine ⟨goodLcd_numToString _, numToString_ne_neg_zero _, ?_⟩
  intro hov
  obtain ⟨q, hq⟩ := parseFloat_finiteE (h3 hov)
  show validStrE (numToString (jsMul (parseFloat s.lcd) (parseFloat s.lcd))) = true
  rw [hq]
  exact numToString_finite_validStrE _

theorem inv_percent (s : CalcState) (h : Inv s) : Inv ((percent s).1) := by
  obtain ⟨h1, h2, h3⟩ := h
  rw [percent]
  refine ⟨goodLcd_numToString _, numToString_ne_neg_zero _, ?_⟩
  intro hov
  obtain ⟨q, hq⟩ := parseFloat_finiteE (h3 hov)
  show validStrE (numToString (jsDiv (parseFloat s.lcd) (JSNum.finite 100))) = true
  rw [hq, show jsDiv (JSNum.finite q) (JSNum.finite 100) = JSNum.finite (qDiv q 100) by
    simp [jsDiv]]
  exact numToString_finite_validStrE _

theorem inv_step (s : CalcState) (b : Button) (h : Inv s) : Inv (applyButton s b) := by
  cases b with
  | digit d => exact inv_digit s d.val h
  | decimal => exact inv_decimal s h
  | negate => exact inv_negate s h
  | op o => exact inv_op s o h
  | equals => exact inv_equals s h
  | clear => exact inv_clear s h
  | square => exact inv_square s h
  | percent => exact inv_percent s h

theorem reachable_inv {s : CalcState} (h : Reachable s) : Inv s := by
  induction h with
  | init => exact inv_init
  | step s b hr ih => exact inv_step s b ih



/-! ## Frame lemmas for the operand/operator fields -/

theorem digit_frame (s : CalcState) (x : Nat) :
    (digit s x).1.arg = s.arg ∧ (digit s x).1.lastOp = s.lastOp ∧
      (digit s x).1.repeatMode = s.repeatMode := by
  rw [digit]; split <;> exact ⟨rfl, rfl, rfl⟩

theorem decimal_frame (s : CalcState) :
    (decimal s).1.arg = s.arg ∧ (decimal s).1.lastOp = s.lastOp ∧
      (decimal s).1.repeatMode = s.repeatMode := by
  rw [decimal]
  split
  · exact ⟨rfl, rfl, rfl⟩
  · split <;> exact ⟨rfl, rfl, rfl⟩

theorem negate_frame (s : CalcState) :
    (negate s).1.arg = s.arg ∧ (negate s).1.lastOp = s.lastOp ∧
      (negate s).1.repeatMode = s.repeatMode := by
  rw [negate]
  split
  · exact ⟨rfl, rfl, rfl⟩
  · split <;> exact ⟨rfl, rfl, rfl⟩

theorem square_frame (s : CalcState) :
    (square s).1.arg = s.arg ∧ (square s).1.lastOp = s.lastOp ∧
      (square s).1.overwrite = s.overwrite ∧ (square s).1.repeatMode = s.repeatMode :=
  ⟨rfl, rfl, rfl, rfl⟩

theorem percent_frame (s : CalcState) :
    (percent s).1.arg = s.arg ∧ (percent s).1.lastOp = s.lastOp ∧
      (percent s).1.overwrite = s.overwrite ∧ (percent s).1.repeatMode = s.repeatMode :=
  ⟨rfl, rfl, rfl, rfl⟩

theorem clear_fst (s : CalcState) :
    (clear s).1 =
      if s.overwrite then
        { lcd := "0", arg := none, lastOp := none, overwrite := true, repeatMode := false }
      else { s with lcd := "0", overwrite := true } := by
  rw [clear]; split <;> simp_all

/-- The operand/operator part of the machine invariant: a pending
operator implies a pending operand, and repeat mode implies a pending
operand. -/
def OpArgInv (s : CalcState) : Prop :=
  (s.lastOp.isSome = true → s.arg.isSome = true) ∧
    (s.repeatMode = true → s.arg.isSome = true)

theorem opArgInv_step (s : CalcState) (b : Button) (h : OpArgInv s) :
    OpArgInv (applyButton s b) := by
  cases b with
  | digit d =>
      show OpArgInv ((digit s d.val).1)
      obtain ⟨ha, hl, hr⟩ := digit_frame s d.val
      exact ⟨by rw [ha, hl]; exact h.1, by rw [ha, hr]; exact h.2⟩
  | decimal =>
      show OpArgInv (decimal s).1
      obtain ⟨ha, hl, hr⟩ := decimal_frame s
      exact ⟨by rw [ha, hl]; exact h.1, by rw [ha, hr]; exact h.2⟩
  | negate =>
      show OpArgInv (negate s).1
      obtain ⟨ha, hl, hr⟩ := negate_frame s
      exact ⟨by rw [ha, hl]; exact h.1, by rw [ha, hr]; exact h.2⟩
  | op o =>
      show OpArgInv (op s o).1
      obtain ⟨-, -, -, ha⟩ := op_flags s o
      exact ⟨fun _ => ha, fun _ => ha⟩
  | equals =>
      show OpArgInv (equals s).1
      obtain ⟨-, -, -, ha⟩ := equals_flags s
      have hs : (equals s).1.arg.isSome = true := by
        rw [ha]
        cases hb : s.repeatMode with
        | true => simpa using h.2 hb
        | false => simp
      exact ⟨fun _ => hs, fun _ => hs⟩
  | clear =>
      rw [show applyButton s Button.clear = (clear s).1 from rfl, clear_fst]
      cases hb : s.overwrite with
      | true => simp [OpArgInv]
      | false => simpa [OpArgInv] using h
  | square =>
      show OpArgInv (square s).1
      obtain ⟨ha, hl, -, hr⟩ := square_frame s
      exact ⟨by rw [ha, hl]; exact h.1, by rw [ha, hr]; exact h.2⟩
  | percent =>
      show OpArgInv (percent s).1
      obtain ⟨ha, hl, -, hr⟩ := percent_frame s
      exact ⟨by rw [ha, hl]; exact h.1, by rw [ha, hr]; exact h.2⟩

theorem reachable_opArgInv {s : CalcState} (h : Reachable s) : OpArgInv s := by
  induction h with
  | init => exact ⟨fun hc => by simp [initState] at hc, fun hc => by simp [initState] at hc⟩
  | step s b hr ih => exact opArgInv_step s b ih

/-! ## Single-step characterisations of `negate` -/

theorem negate_noop (s : CalcState) (hov : s.overwrite = false) (he : s.lcd = "0") :
    (negate s).1 = s := by
  rw [negate, if_neg (by simp [hov]), if_neg (by simp [he])]

theorem negate_strip (s : CalcState) (hov : s.overwrite = false) (hne : s.lcd ≠ "0")
    (hh : s.lcd.data.head? = some '-') :
    (negate s).1 = { s with lcd := String.mk s.lcd.data.tail } := by
  rw [negate, if_neg (by simp [hov]), if_pos hne]
  simp only [if_pos hh]

theorem negate_prepend (s : CalcState) (hov : s.overwrite = false) (hne : s.lcd ≠ "0")
    (hh : s.lcd.data.head? ≠ some '-') :
    (negate s).1 = { s with lcd := "-" ++ s.lcd } := by
  rw [negate, if_neg (by simp [hov]), if_pos hne]
  simp only [if_neg hh]


/-! ## Helper characterisations of `negate` presses -/

theorem minus_append_data (s : String) : ("-" ++ s).data = '-' :: s.data := by
  rw [String.data_append]; rfl

/-! # The claims -/

/-- C1, counterexample.  Pressing equals with a pending `Div` and a zero
pending operand (reached by `0 / 5 =`) leaves the display at `5`: the
division is *not* performed, although the claim says the display would be
updated with the stringified quotient (`0/5` prints as `0`). -/
theorem c1_counterexample :
    (run initState [.digit 0, .op .Div, .digit 5]).lastOp = some Op.Div ∧
    (run initState [.digit 0, .op .Div, .digit 5]).arg = some (JSNum.finite 0) ∧
    (run initState [.digit 0, .op .Div, .digit 5, .equals]).lcd = "5" ∧
    numToString (jsDiv (JSNum.finite 0) (JSNum.finite 5)) = "0" ∧
    ("5" : String) ≠ "0" := by
  decide

/-- C1, amended.  When equals() is pressed with a pending `Div` operation
and pending operand `0`, the calculator logs a division-by-zero error and
skips the division entirely (`break` inside the zero check): the display
is left unchanged — unlike `op`, where the division still proceeds. -/
theorem c1_amended (s : CalcState) (hop : s.lastOp = some Op.Div)
    (hz : s.arg = some (JSNum.finite 0)) :
    (equals s).1.lcd = s.lcd ∧
      LogEvent.error "Divison by zero is not supported." ∈ (equals s).2 := by
  rw [equals]
  simp [hop, hz]

/-- C1, witness for the amended theorem, at the state reached by
`0 / 5`. -/
theorem c1_witness :
    (run initState [.digit 0, .op .Div, .digit 5]).lastOp = some Op.Div ∧
    (run initState [.digit 0, .op .Div, .digit 5]).arg = some (JSNum.finite 0) ∧
    (equals (run initState [.digit 0, .op .Div, .digit 5])).1.lcd =
      (run initState [.digit 0, .op .Div, .digit 5]).lcd := by
  have h := c1_amended (run initState [.digit 0, .op .Div, .digit 5])
    (by decide) (by decide)
  exact ⟨by decide, by decide, h.1⟩

/-- C2, evaluation of the code at the failing input.  After `8 / 2 =`
the state has repeat mode on, pending operator `Div`, display `4` and
stored operand `2`.  The claim (and the doc comment of the `repeat`
field) requires the next equals to show `display / operand = 4 / 2 = 2`,
but the code computes `operand / display = 2 / 4` and shows `0.5`.  For
`Sub` the code does follow the claim: `9 - 2 = =` shows `7` then `5`. -/
theorem c2_code_eval :
    (run initState [.digit 8, .op .Div, .digit 2, .equals]).repeatMode = true ∧
    (run initState [.digit 8, .op .Div, .digit 2, .equals]).lastOp = some Op.Div ∧
    (run initState [.digit 8, .op .Div, .digit 2, .equals]).lcd = "4" ∧
    (run initState [.digit 8, .op .Div, .digit 2, .equals]).arg = some (JSNum.finite 2) ∧
    (run initState [.digit 8, .op .Div, .digit 2, .equals, .equals]).lcd = "0.5" ∧
    numToString (jsDiv (JSNum.finite 4) (JSNum.finite 2)) = "2" ∧
    (run initState [.digit 9, .op .Sub, .digit 2, .equals, .equals]).lcd = "5" := by
  decide

/-- C3, counterexample.  Pressing equals once from the initial state
(no pending operator) yields a reachable state with `arg = some 0` but
`lastOp = none` and `repeatMode = true`: the pending operand is present
without the pending operator, and repeat mode holds without a pending
operator — both contradicting the claim. -/
theorem c3_counterexample :
    Reachable (equals initState).1 ∧
    (equals initState).1.arg = some (JSNum.finite 0) ∧
    (equals initState).1.lastOp = none ∧
    (equals initState).1.repeatMode = true := by
  refine ⟨Reachable.step initState Button.equals Reachable.init, ?_, ?_, ?_⟩ <;> decide

/-- C3, amended.  In every reachable state, a pending operator implies a
pending operand, and repeat mode implies a pending operand; the converse
can fail (pending operand without pending operator, after equals with no
pending operator). -/
theorem c3_amended (s : CalcState) (hr : Reachable s) :
    (s.lastOp.isSome = true → s.arg.isSome = true) ∧
      (s.repeatMode = true → s.arg.isSome = true) :=
  reachable_opArgInv hr

/-- C3, witness for the amended theorem at the reachable state `3 +`. -/
theorem c3_witness :
    (run initState [.digit 3, .op .Add]).arg.isSome = true := by
  have h := c3_amended (run initState [.digit 3, .op .Add])
    (Reachable.step _ (Button.op Op.Add) (Reachable.step _ (Button.digit 3) Reachable.init))
  exact h.1 (by decide)

/-- C4, counterexample.  After `3 +` the calculator is in overwrite mode
with pending operand `3` and operator `Add`; a *single* clear() press
already wipes them, although the claim says a single press leaves
pending operand/operator intact in every state. -/
theorem c4_counterexample :
    (run initState [.digit 3, .op .Add]).overwrite = true ∧
    (run initState [.digit 3, .op .Add]).arg = some (JSNum.finite 3) ∧
    (run initState [.digit 3, .op .Add]).lastOp = some Op.Add ∧
    (run initState [.digit 3, .op .Add, .clear]).arg = none ∧
    (run initState [.digit 3, .op .Add, .clear]).lastOp = none := by
  decide

/-- C4, amended.  A clear() press made while *not* in overwrite mode only
resets the display to `0` and enables overwrite mode, leaving pending
operand, operator and repeat mode intact; a clear() press made while in
overwrite mode — in particular any second consecutive press — performs
the full reset. -/
theorem c4_amended (s : CalcState) :
    (s.overwrite = false →
      (clear s).1 = { lcd := "0", arg := s.arg, lastOp := s.lastOp,
                      overwrite := true, repeatMode := s.repeatMode }) ∧
    (s.overwrite = true →
      (clear s).1 = { lcd := "0", arg := none, lastOp := none,
                      overwrite := true, repeatMode := false }) ∧
    (clear (clear s).1).1 = { lcd := "0", arg := none, lastOp := none,
                              overwrite := true, repeatMode := false } := by
  refine ⟨fun hov => ?_, fun hov => ?_, ?_⟩
  · rw [clear_fst, if_neg (by simp [hov])]
  · rw [clear_fst, if_pos hov]
  · cases hb : s.overwrite with
    | true => simp [clear_fst, hb]
    | false => simp [clear_fst, hb]

/-- C4, witness for the amended theorem at the append-mode state `3 + 5`
(first press keeps the pending operation, second press resets). -/
theorem c4_witness :
    (run initState [.digit 3, .op .Add, .digit 5]).overwrite = false ∧
    (clear (run initState [.digit 3, .op .Add, .digit 5])).1 =
      { lcd := "0", arg := some (JSNum.finite 3), lastOp := some Op.Add,
        overwrite := true, repeatMode := false } ∧
    (clear (clear (run initState [.digit 3, .op .Add, .digit 5])).1).1 =
      { lcd := "0", arg := none, lastOp := none,
        overwrite := true, repeatMode := false } := by
  have h := c4_amended (run initState [.digit 3, .op .Add, .digit 5])
  refine ⟨by decide, ?_, h.2.2⟩
  rw [h.1 (by decide)]
  decide

/-- C6.  Starting from the initial state, `digit 2, Add, digit 4, Add`
leaves the display reading `6` (the collapsed intermediate result of
`2 + 4`), with pending operand `6` and pending operator `Add`. -/
theorem c6_chain_collapse :
    (run initState [.digit 2, .op .Add, .digit 4, .op .Add]).lcd = "6" ∧
    (run initState [.digit 2, .op .Add, .digit 4, .op .Add]).arg = some (JSNum.finite 6) ∧
    (run initState [.digit 2, .op .Add, .digit 4, .op .Add]).lastOp = some Op.Add := by
  decide

/-- C7, auxiliary: once in append mode, a run of digit presses appends
the corresponding digit characters and stays in append mode. -/
theorem digitsRun_append (ds : List (Fin 10)) : ∀ (s : CalcState), s.overwrite = false →
    (run s (ds.map Button.digit)).lcd =
        s.lcd ++ String.mk (ds.map fun d => digitChar d.val) ∧
      (run s (ds.map Button.digit)).overwrite = false := by
  induction ds with
  | nil =>
      intro s hov
      refine ⟨String.ext_iff.mpr ?_, hov⟩
      rw [String.data_append]
      simp [run]
  | cons d rest ih =>
      intro s hov
      have hnd : natToDigits d.val = [digitChar d.val] := by
        rw [natToDigits, natToDigitsAux, if_pos d.isLt]
      have hd1 : (digit s d.val).1
          = { s with lcd := s.lcd ++ String.mk [digitChar d.val] } := by
        rw [digit, if_neg (by simp [hov]), hnd]
      obtain ⟨hl, ho⟩ := ih ((digit s d.val).1) (by rw [hd1]; exact hov)
      constructor
      · show (run ((digit s d.val).1) (rest.map Button.digit)).lcd = _
        rw [hl, hd1]
        apply String.ext_iff.mpr
        show (s.lcd ++ String.mk [digitChar d.val] ++ _).data = _
        rw [String.data_append, String.data_append, String.data_append,
          List.append_assoc]
        rfl
      · show (run ((digit s d.val).1) (rest.map Button.digit)).overwrite = false
        exact ho

/-- C7.  From any state in overwrite mode, a non-empty run of digit
presses (digits 0–9) leaves the display equal to the concatenation of
the digits typed, the first digit replacing the old contents and each
further digit appending. -/
theorem c7_digit_concatenation (s : CalcState) (ds : List (Fin 10))
    (hov : s.overwrite = true) (hne : ds ≠ []) :
    (run s (ds.map Button.digit)).lcd =
      String.mk (ds.map fun d => digitChar d.val) := by
  cases ds with
  | nil => exact absurd rfl hne
  | cons d rest =>
      have hnd : natToDigits d.val = [digitChar d.val] := by
        rw [natToDigits, natToDigitsAux, if_pos d.isLt]
      have hd1 : (digit s d.val).1
          = { s with lcd := String.mk [digitChar d.val], overwrite := false } := by
        rw [digit, if_pos hov, hnd]
      obtain ⟨hl, -⟩ := digitsRun_append rest ((digit s d.val).1) (by rw [hd1])
      show (run ((digit s d.val).1) (rest.map Button.digit)).lcd = _
      rw [hl, hd1]
      apply String.ext_iff.mpr
      show (String.mk [digitChar d.val] ++ _).data = _
      rw [String.data_append]
      rfl

/-- C7, witness: typing `7` then `0` from the initial (overwrite-mode)
state shows `70`. -/
theorem c7_witness :
    initState.overwrite = true ∧
    (run initState (([7, 0] : List (Fin 10)).map Button.digit)).lcd = "70" := by
  refine ⟨rfl, ?_⟩
  rw [c7_digit_concatenation initState [7, 0] rfl (by decide)]
  decide

/-- C8.  In every reachable state in append mode, pressing negate twice
on a display other than `0` restores the original display string, and a
single negate press on a display of exactly `0` leaves it unchanged. -/
theorem c8_negate_involution (s : CalcState) (hr : Reachable s)
    (hov : s.overwrite = false) :
    (s.lcd ≠ "0" → (negate (negate s).1).1.lcd = s.lcd) ∧
      (s.lcd = "0" → (negate s).1.lcd = s.lcd) := by
  obtain ⟨h1, h2, h3⟩ := reachable_inv hr
  have hvs := h3 hov
  constructor
  · intro hne
    by_cases hh : s.lcd.data.head? = some '-'
    · -- first press strips the minus sign, second press restores it
      have hv0 := validNumE_tail_of_minus hvs hh
      rcases hdata : s.lcd.data with _ | ⟨c, t⟩
      · exact absurd hdata (validStrE_nonempty hvs)
      have hc : c = '-' := by rw [hdata] at hh; simpa using hh
      subst hc
      rw [hdata, List.tail_cons] at hv0
      rcases hct : t with _ | ⟨c2, t2⟩
      · rw [hct] at hv0; exact absurd hv0 (by simp [validNumE])
      subst hct
      have hd2 := validNumE_head_digit hv0
      rw [negate_strip s hov hne hh, hdata, List.tail_cons]
      have hne2 : String.mk (c2 :: t2) ≠ "0" := by
        intro he
        have hdd : c2 :: t2 = ['0'] := congrArg String.data he
        exact h2 (String.ext_iff.mpr (by rw [hdata, hdd]))
      have hh2 : (String.mk (c2 :: t2)).data.head? ≠ some '-' := by
        intro hx
        have hx2 : c2 = '-' := by simpa using hx
        exact isDigitCh_ne_minus hd2 hx2
      rw [negate_prepend { s with lcd := String.mk (c2 :: t2) } hov hne2 hh2]
      show "-" ++ String.mk (c2 :: t2) = s.lcd
      apply String.ext_iff.mpr
      rw [minus_append_data, hdata]
    · -- first press prepends the minus sign, second press strips it
      rw [negate_prepend s hov hne hh]
      have hne2 : ("-" ++ s.lcd) ≠ "0" := by
        intro he
        have hdd := congrArg String.data he
        rw [minus_append_data] at hdd
        simp at hdd
      have hh2 : ("-" ++ s.lcd).data.head? = some '-' := by
        rw [minus_append_data]; rfl
      rw [negate_strip { s with lcd := "-" ++ s.lcd } hov hne2 hh2]
      show String.mk ("-" ++ s.lcd).data.tail = s.lcd
      rw [minus_append_data, List.tail_cons]
  · intro he
    rw [negate_noop s hov he]

/-- C8, witness at the reachable append-mode state showing `5`: two
negate presses restore `5`. -/
theorem c8_witness :
    (run initState [.digit 5]).overwrite = false ∧
    (run initState [.digit 5]).lcd = "5" ∧
    (negate (negate (run initState [.digit 5])).1).1.lcd =
      (run initState [.digit 5]).lcd := by
  have h := c8_negate_involution (run initState [.digit 5])
    (Reachable.step _ (Button.digit 5) Reachable.init) (by decide)
  exact ⟨by decide, by decide, h.1 (by decide)⟩

/-- C9.  For every state, square() replaces the display with the
stringified square of the displayed value and percent() with the
stringified displayed value divided by 100; both leave the pending
operand, pending operator, overwrite flag and repeat flag unchanged. -/
theorem c9_square_percent_frame (s : CalcState) :
    (square s).1.lcd = numToString (jsMul (parseFloat s.lcd) (parseFloat s.lcd)) ∧
    (square s).1.arg = s.arg ∧ (square s).1.lastOp = s.lastOp ∧
    (square s).1.overwrite = s.overwrite ∧ (square s).1.repeatMode = s.repeatMode ∧
    (percent s).1.lcd = numToString (jsDiv (parseFloat s.lcd) (JSNum.finite 100)) ∧
    (percent s).1.arg = s.arg ∧ (percent s).1.lastOp = s.lastOp ∧
    (percent s).1.overwrite = s.overwrite ∧ (percent s).1.repeatMode = s.repeatMode :=
  ⟨rfl, rfl, rfl, rfl, rfl, rfl, rfl, rfl, rfl, rfl⟩

/-- C10, counterexample.  In the reachable state reached by `=`, `5`
(pending operator absent, repeat mode already true), pressing equals
leaves the pending operand at its old value `0` instead of setting it to
the numeric value `5` of the current display, contradicting the claim. -/
theorem c10_counterexample :
    (run initState [.equals, .digit 5]).lastOp = none ∧
    (run initState [.equals, .digit 5]).repeatMode = true ∧
    (run initState [.equals, .digit 5]).lcd = "5" ∧
    parseFloat (run initState [.equals, .digit 5]).lcd = JSNum.finite 5 ∧
    (run initState [.equals, .digit 5, .equals]).arg = some (JSNum.finite 0) ∧
    (run initState [.equals, .digit 5, .equals]).arg ≠
      some (parseFloat (run initState [.equals, .digit 5]).lcd) := by
  decide

/-- C10, amended.  For every state with no pending operator, equals()
leaves the display unchanged, keeps the pending operator absent, sets
repeat and overwrite mode, and sets the pending operand to the numeric
display value only when repeat mode was off beforehand, leaving it
unchanged when repeat mode was already on. -/
theorem c10_amended (s : CalcState) (hop : s.lastOp = none) :
    (equals s).1.lcd = s.lcd ∧ (equals s).1.lastOp = none ∧
    (equals s).1.repeatMode = true ∧ (equals s).1.overwrite = true ∧
    (equals s).1.arg = (if s.repeatMode then s.arg else some (parseFloat s.lcd)) := by
  rw [equals]
  simp [hop]

/-- C10, witness for the amended theorem at the initial state. -/
theorem c10_witness :
    initState.lastOp = none ∧
    (equals initState).1.lcd = initState.lcd ∧
    (equals initState).1.arg =
      (if initState.repeatMode then initState.arg else some (parseFloat initState.lcd)) := by
  have h := c10_amended initState rfl
  exact ⟨rfl, h.1, h.2.2.2.2⟩

end Calculator
